import Mathlib

/-!
Shallow embedding of the delay-spectrum engine of `draco/analysis/delay.py`
(delay power-spectrum estimation and delay filtering of radio-interferometer
visibilities), together with theorems settling the specification claims.

Conventions used throughout:
* floating-point numbers are idealised as real numbers `ℝ`;
* numpy arrays become functions out of `Fin n` or Mathlib matrices;
* Python 2 integer division (`N / 2` on ints) becomes `Nat` division;
* fallible code returns `Except PyError`;
* the external SciPy routines `scipy.linalg.svd` and `scipy.linalg.solve`
  are not part of the repository; they are modelled through their contracts
  (orthonormal columns for the retained left singular vectors, and the
  linear-system equation for the solver), as are the random draws of
  `numpy.random` and `scipy.stats` (modelled as explicit inputs).
-/

namespace DracoDelay

open Finset Real

/-- Python exceptions that the embedded code can raise.  `typeError` models
the TypeError produced when a non-callable object is called,
`keyError` models a missing dictionary key, `notImplementedError` models
NotImplementedError, and `invalidConfiguration` models the configuration
error type that the specification refers to. -/
inductive PyError where
  | typeError : String → PyError
  | keyError : String → PyError
  | notImplementedError : String → PyError
  | invalidConfiguration : PyError
deriving DecidableEq

/-- Coefficient table entry for the nuttall window
(`a_table` in `window_generalised`, delay.py line 247). -/
def nuttall_a : Fin 4 → ℝ := ![0.355768, -0.487396, 0.144232, -0.012604]

/-- Coefficient table entry for the blackman_nuttall window (line 248). -/
def blackman_nuttall_a : Fin 4 → ℝ := ![0.3635819, -0.4891775, 0.1365995, -0.0106411]

/-- Coefficient table entry for the blackman_harris window (line 249). -/
def blackman_harris_a : Fin 4 → ℝ := ![0.35875, -0.48829, 0.14128, -0.01168]

/-- Cosine series of `window_generalised` (delay.py lines 254-256):
`t = 2 pi arange(4) x` and `w = sum_k a_k cos(t_k)`. -/
noncomputable def window_sum (a : Fin 4 → ℝ) (x : ℝ) : ℝ :=
  ∑ k : Fin 4, a k * Real.cos (2 * Real.pi * (k : ℕ) * x)

/-- Dictionary `a_table` of `window_generalised` (delay.py lines 246-250).
A lookup with an unknown key yields `none`, which the caller turns into a
Python KeyError exactly as the dictionary indexing `a_table[window]` does. -/
def a_table (window : String) : Option (Fin 4 → ℝ) :=
  if window = "nuttall" then some nuttall_a
  else if window = "blackman_nuttall" then some blackman_nuttall_a
  else if window = "blackman_harris" then some blackman_harris_a
  else none

/-- Embedding of `window_generalised` (delay.py lines 230-258): evaluate a
generalised high-order window at arbitrary locations.  The dictionary lookup
`a = a_table[window]` happens before `x` is used, so an unknown window name
raises a KeyError for every input array. -/
noncomputable def window_generalised (x : List ℝ) (window : String) : Except PyError (List ℝ) :=
  match a_table window with
  | none => Except.error (PyError.keyError window)
  | some a => Except.ok (x.map (window_sum a))

/-- Entry of the real-to-complex Fourier design matrix
(delay.py lines 287-290): even rows are `cos(2 pi t f / N)`, odd rows are
`-sin(2 pi t f / N)`, where `f = fa (r / 2)` is the channel index of the
row pair and `t` is the time index. -/
noncomputable def r2c_entry (N : ℕ) (fa : ℕ → ℕ) (r t : ℕ) : ℝ :=
  if r % 2 = 0 then Real.cos (2 * Real.pi * t * (fa (r / 2)) / N)
  else -Real.sin (2 * Real.pi * t * (fa (r / 2)) / N)

/-- Embedding of `fourier_matrix_r2c` (delay.py lines 261-292):
the `(2 nf, N)` matrix taking a length `N` real series to the selected
frequency channels packed as alternating real and imaginary parts.
`fa` is the channel-index selection `fsel`; the default selection is
`fa = id` with `nf = N / 2 + 1`. -/
noncomputable def fourier_matrix_r2c (N nf : ℕ) (fa : ℕ → ℕ) : Matrix (Fin (2 * nf)) (Fin N) ℝ :=
  Matrix.of fun r t => r2c_entry N fa (r : ℕ) (t : ℕ)

/-- Normalisation factor of `fourier_matrix_c2r` (delay.py line 320):
`np.where((fa == 0) | (fa == N / 2), 1.0, 2.0) / N`. -/
noncomputable def fourier_mul (N : ℕ) (f : ℕ) : ℝ :=
  (if f = 0 ∨ f = N / 2 then 1 else 2) / N

/-- Entry of the complex-to-real Fourier design matrix
(delay.py lines 324-327): even columns are `cos(2 pi t f / N) * mul`, odd
columns are `-sin(2 pi t f / N) * mul`. -/
noncomputable def c2r_entry (N : ℕ) (fa : ℕ → ℕ) (t c : ℕ) : ℝ :=
  if c % 2 = 0 then Real.cos (2 * Real.pi * t * (fa (c / 2)) / N) * fourier_mul N (fa (c / 2))
  else -Real.sin (2 * Real.pi * t * (fa (c / 2)) / N) * fourier_mul N (fa (c / 2))

/-- Embedding of `fourier_matrix_c2r` (delay.py lines 295-329):
the `(N, 2 nf)` matrix taking frequencies packed as alternating real and
imaginary parts back to the real time series. -/
noncomputable def fourier_matrix_c2r (N nf : ℕ) (fa : ℕ → ℕ) : Matrix (Fin N) (Fin (2 * nf)) ℝ :=
  Matrix.of fun t c => c2r_entry N fa (t : ℕ) (c : ℕ)

/-- Index of the channel that an interleaved real/imaginary row belongs to. -/
def divTwo {n : ℕ} (r : Fin (2 * n)) : Fin n :=
  ⟨(r : ℕ) / 2, by omega⟩

/-- Inputs of `delay_spectrum_gibbs` (delay.py lines 332-361) together with
the stochastic and external-library values that the routine consumes,
modelled as explicit inputs:
* `data`, `Ni`, `initial_S`, `fa` (the `fsel` channel selection) and
  `window` are the ordinary arguments of the Python function;
* `dsamp k` models the value returned by `la.solve(Ci, y, sym_pos=True)`
  in iteration `k` (the solver contract `Ci * dsamp k = y k` is the
  separate proposition `gibbs_solve_valid`);
* `w1 k` and `w2 k` model the two `np.random.standard_normal` draws of
  iteration `k`;
* `chi2 k` models the `st.chi2.rvs` draw of iteration `k`. -/
structure GibbsInput (N nt nf : ℕ) where
  fa : ℕ → ℕ
  data : Matrix (Fin nt) (Fin nf) ℂ
  Ni : Fin nf → ℝ
  initial_S : Fin N → ℝ
  window : Bool
  dsamp : ℕ → Matrix (Fin N) (Fin nt) ℝ
  w1 : ℕ → Matrix (Fin N) (Fin nt) ℝ
  w2 : ℕ → Matrix (Fin (2 * nf)) (Fin nt) ℝ
  chi2 : ℕ → Fin N → ℝ

/-- Total number of frequency channels `total_freq = N / 2 + 1`
(delay.py line 365, Python 2 integer division). -/
def gibbs_total_freq (N : ℕ) : ℕ := N / 2 + 1

/-- The view of the complex data with alternating real and imaginary parts,
transposed (delay.py line 374): row `2 f` holds the real part of channel `f`,
row `2 f + 1` its imaginary part, columns are the original leading axis. -/
noncomputable def data_ri {N nt nf : ℕ} (g : GibbsInput N nt nf) :
    Matrix (Fin (2 * nf)) (Fin nt) ℝ :=
  Matrix.of fun r c =>
    if (r : ℕ) % 2 = 0 then (g.data c (divTwo r)).re else (g.data c (divTwo r)).im

/-- The window vector `np.repeat(w, 2)` with `w = window_generalised(fsel / total_freq)`
using the nuttall family (delay.py lines 380-382). -/
noncomputable def gibbs_w {N nt nf : ℕ} (g : GibbsInput N nt nf) : Fin (2 * nf) → ℝ :=
  fun r => window_sum nuttall_a ((g.fa (divTwo r) : ℝ) / (gibbs_total_freq N : ℝ))

/-- The Fourier design matrix of the sampler, windowed if `window` is set
(delay.py lines 371 and 385). -/
noncomputable def gibbs_F {N nt nf : ℕ} (g : GibbsInput N nt nf) :
    Matrix (Fin (2 * nf)) (Fin N) ℝ :=
  if g.window then
    Matrix.of fun r t => gibbs_w g r * fourier_matrix_r2c N nf g.fa r t
  else fourier_matrix_r2c N nf g.fa

/-- The interleaved data, windowed if `window` is set (delay.py line 386). -/
noncomputable def gibbs_data {N nt nf : ℕ} (g : GibbsInput N nt nf) :
    Matrix (Fin (2 * nf)) (Fin nt) ℝ :=
  if g.window then Matrix.of fun r c => gibbs_w g r * data_ri g r c
  else data_ri g

/-- The interleaved inverse-noise vector `Ni_r` (delay.py lines 388-394):
the zero and Nyquist channels are strictly real, so their imaginary weight is
zero and their real weight is `Ni`; all other channels get `Ni / sqrt 2` on
both components. -/
noncomputable def gibbs_Ni_r {N nt nf : ℕ} (g : GibbsInput N nt nf) : Fin (2 * nf) → ℝ :=
  fun r =>
    if (r : ℕ) % 2 = 0 then
      (if g.fa (divTwo r) = 0 ∨ g.fa (divTwo r) = N / 2 then g.Ni (divTwo r)
       else g.Ni (divTwo r) / Real.sqrt 2)
    else
      (if g.fa (divTwo r) = 0 ∨ g.fa (divTwo r) = N / 2 then 0
       else g.Ni (divTwo r) / Real.sqrt 2)

/-- The noise-weighted conjugate `FTNi = F.T * Ni_r` (delay.py line 397). -/
noncomputable def gibbs_FTNi {N nt nf : ℕ} (g : GibbsInput N nt nf) :
    Matrix (Fin N) (Fin (2 * nf)) ℝ :=
  Matrix.of fun t r => gibbs_F g r t * gibbs_Ni_r g r

/-- The normal matrix `FTNiF = dot(FTNi, F)` (delay.py line 398). -/
noncomputable def gibbs_FTNiF {N nt nf : ℕ} (g : GibbsInput N nt nf) :
    Matrix (Fin N) (Fin N) ℝ :=
  gibbs_FTNi g * gibbs_F g

/-- The Wiener posterior precision `Ci = diag(1 / S) + FTNiF`
(delay.py lines 412-413). -/
noncomputable def gibbs_Ci {N nt nf : ℕ} (g : GibbsInput N nt nf) (S : Fin N → ℝ) :
    Matrix (Fin N) (Fin N) ℝ :=
  Matrix.diagonal (fun i => 1 / S i) + gibbs_FTNiF g

/-- The perturbed right-hand side `y` of the Wiener solve in iteration `k`
(delay.py lines 421-422):
`y = dot(FTNi, data) + sqrt(Si) * w1 + dot(F.T, sqrt(Ni_r) * w2)`. -/
noncomputable def gibbs_y {N nt nf : ℕ} (g : GibbsInput N nt nf) (S : Fin N → ℝ) (k : ℕ) :
    Matrix (Fin N) (Fin nt) ℝ :=
  gibbs_FTNi g * gibbs_data g
    + Matrix.of (fun i j => Real.sqrt (1 / S i) * g.w1 k i j)
    + (gibbs_F g).transpose * Matrix.of (fun r j => Real.sqrt (gibbs_Ni_r g r) * g.w2 k r j)

/-- Population variance along a row, `np.var` with its default `ddof = 0`. -/
noncomputable def np_var {n : ℕ} (v : Fin n → ℝ) : ℝ :=
  (∑ j, (v j - (∑ j, v j) / n) ^ 2) / n

/-- Embedding of the inner function `_draw_ps_sample` (delay.py lines 426-438):
`S_samp = d.var(axis=1) * df / chi2` with `df = d.shape[1]` and `chi2` the
chi-squared draw, modelled as an input. -/
noncomputable def draw_ps_sample {N nt : ℕ} (d : Matrix (Fin N) (Fin nt) ℝ)
    (chi2 : Fin N → ℝ) : Fin N → ℝ :=
  fun i => np_var (fun j => d i j) * (nt : ℝ) / chi2 i

/-- The power-spectrum state of the Gibbs chain (delay.py lines 400-447):
`gibbs_S_chain g k` is the value of `S_samp` after `k` iterations; iteration
`k` replaces it by the power-spectrum draw computed from the signal sample
`dsamp k` of that iteration. -/
noncomputable def gibbs_S_chain {N nt nf : ℕ} (g : GibbsInput N nt nf) : ℕ → Fin N → ℝ
  | 0 => g.initial_S
  | k + 1 => draw_ps_sample (g.dsamp k) (g.chi2 k)

/-- The contract of `la.solve(Ci, y, sym_pos=True)` (delay.py line 424) for
the first `niter` iterations: the signal sample of iteration `k` solves the
linear system with the matrix `Ci` and right-hand side `y` built from the
power spectrum of iteration `k`. -/
def gibbs_solve_valid {N nt nf : ℕ} (g : GibbsInput N nt nf) (niter : ℕ) : Prop :=
  ∀ k, k < niter →
    gibbs_Ci g (gibbs_S_chain g k) * g.dsamp k = gibbs_y g (gibbs_S_chain g k) k

/-- Embedding of `delay_spectrum_gibbs` (delay.py lines 332-449): the list of
power-spectrum samples appended by the `niter` Gibbs iterations, one sample
per iteration. -/
noncomputable def delay_spectrum_gibbs {N nt nf : ℕ} (g : GibbsInput N nt nf)
    (niter : ℕ) : List (Fin N → ℝ) :=
  (List.range niter).map fun k => gibbs_S_chain g (k + 1)

/-- Smallest entry of the frequency axis, `freq.min()` (delay.py line 477).
The axis is indexed by `Fin (m + 1)` so that it is never empty, as numpy
requires for `min` and `ptp`. -/
noncomputable def freqMin {m : ℕ} (freq : Fin (m + 1) → ℝ) : ℝ :=
  Finset.univ.inf' Finset.univ_nonempty freq

/-- Peak-to-peak span `freq.ptp()` of the frequency axis (delay.py line 477). -/
noncomputable def freqPtp {m : ℕ} (freq : Fin (m + 1) → ℝ) : ℝ :=
  Finset.univ.sup' Finset.univ_nonempty freq - freqMin freq

/-- Normalised locations `x = (freq - freq.min()) / freq.ptp()`
(delay.py line 477). -/
noncomputable def ndf_x {m : ℕ} (freq : Fin (m + 1) → ℝ) (j : Fin (m + 1)) : ℝ :=
  (freq j - freqMin freq) / freqPtp freq

/-- The window `w = window_generalised(x)` of `null_delay_filter` with its
nuttall default (delay.py line 478). -/
noncomputable def ndf_w {m : ℕ} (freq : Fin (m + 1) → ℝ) (j : Fin (m + 1)) : ℝ :=
  window_sum nuttall_a (ndf_x freq j)

/-- The candidate delay grid `np.linspace(-max_delay, max_delay, num_delay)`
(delay.py line 480). -/
noncomputable def ndf_delay (max_delay : ℝ) (num_delay : ℕ) (d : Fin num_delay) : ℝ :=
  -max_delay + (d : ℝ) * (2 * max_delay) / ((num_delay : ℝ) - 1)

/-- The complex exponential design matrix of `null_delay_filter`
(delay.py line 483):
`F = (mask * w)[:, None] * exp(2J pi delay[None, :] * freq[:, None])`. -/
noncomputable def ndf_F (m num_delay : ℕ) (freq : Fin (m + 1) → ℝ)
    (mask : Fin (m + 1) → ℝ) (max_delay : ℝ) :
    Matrix (Fin (m + 1)) (Fin num_delay) ℂ :=
  Matrix.of fun j d =>
    ((mask j * ndf_w freq j : ℝ) : ℂ)
      * Complex.exp (2 * Complex.I * (Real.pi : ℂ) * (ndf_delay max_delay num_delay d : ℂ)
          * (freq j : ℂ))

/-- The mode count `nmodes = np.sum(sig > tol * sig.max())` computed from the
singular values returned by `la.svd(F)` (delay.py lines 487-488).  The
singular values are indexed by `Fin (ns + 1)`: numpy always returns at least
one singular value for the nonempty matrices built here. -/
noncomputable def ndf_nmodes {ns : ℕ} (sig : Fin (ns + 1) → ℝ) (tol : ℝ) : ℕ :=
  (Finset.univ.filter fun i => tol * Finset.univ.sup' Finset.univ_nonempty sig < sig i).card

/-- Embedding of the tail of `null_delay_filter` (delay.py lines 487-497).
The SVD factor `p = u[:, :nmodes]` is produced by the external routine
`la.svd`, so it enters as a parameter; its SVD contract (orthonormal
columns, `p.conjTranspose * p = 1`) is a hypothesis of the theorems below.
The returned projection matrix is `proj = I - p p^H`, re-scaled on the right
by `mask * w` when `window` is set, exactly as
`proj = (mask * w)[None, :] * proj` does. -/
noncomputable def null_delay_filter (m : ℕ) (freq : Fin (m + 1) → ℝ)
    (mask : Fin (m + 1) → ℝ) {k : ℕ} (p : Matrix (Fin (m + 1)) (Fin k) ℂ)
    (window : Bool) : Matrix (Fin (m + 1)) (Fin (m + 1)) ℂ :=
  if window then
    Matrix.of fun i j =>
      ((mask j * ndf_w freq j : ℝ) : ℂ)
        * ((1 - p * p.conjTranspose : Matrix (Fin (m + 1)) (Fin (m + 1)) ℂ) i j)
  else 1 - p * p.conjTranspose

/-- Insert a value into a sorted list, keeping it sorted. -/
def insertOrdered {α : Type} [LinearOrder α] (x : α) : List α → List α
  | [] => [x]
  | y :: ys => if x ≤ y then x :: y :: ys else y :: insertOrdered x ys

/-- Insertion sort, the sorting step of `np.median`. -/
def sortList {α : Type} [LinearOrder α] : List α → List α
  | [] => []
  | x :: xs => insertOrdered x (sortList xs)

/-- Embedding of `np.median` on a one-dimensional array: sort, then take the
middle element (odd length) or the mean of the two middle elements (even
length).  The empty list, for which numpy produces nan, is sent to zero. -/
def np_median {α : Type} [LinearOrderedField α] (l : List α) : α :=
  if l.length % 2 = 1 then (sortList l).getD (l.length / 2) 0
  else ((sortList l).getD (l.length / 2 - 1) 0 + (sortList l).getD (l.length / 2) 0) / 2

/-- Python slice `l[-k:]`: the last `k` elements, except that `k = 0` gives
the whole list (`l[-0:]` is `l[0:]`), as in `spec[-(self.nsamp / 2):]`
(delay.py line 164). -/
def pySliceLast {α : Type} (k : ℕ) (l : List α) : List α :=
  if k = 0 then l else l.drop (l.length - k)

/-- Embedding of `np.fft.fftshift` on a length `n` axis: a cyclic roll by
`n / 2` that moves the zero-frequency bin to the centre. -/
def np_fftshift {α : Type} (n : ℕ) (v : Fin n → α) : Fin n → α :=
  fun i => v ⟨((i : ℕ) + (n - n / 2)) % n, Nat.mod_lt _ i.pos⟩

/-- Embedding of the per-baseline loop of `DelaySpectrumEstimator.process`
(delay.py lines 142-167), generic over the ordered field of scalars.
* `vis_I b` is the Stokes I data of baseline `b` as produced by `stokes_I`,
  with complex values modelled as real/imaginary pairs;
* `gibbs b` models the list of power-spectrum samples returned by the call
  to `delay_spectrum_gibbs` for baseline `b` (the stochastic sampler is
  modelled as an input; its weight argument, the time median of
  `vis_weight`, is absorbed into this oracle);
* the spectrum is initialised to zero (line 142); a baseline whose data is
  identically zero is skipped (lines 156-157); otherwise the stored row is
  `fftshift(median(spec[-(nsamp / 2):], axis=0))` (lines 164-165). -/
def DelaySpectrumEstimator_process {α : Type} [LinearOrderedField α] [DecidableEq α]
    (nbase nf nt nd nsamp : ℕ)
    (vis_I : Fin nbase → Fin nf → Fin nt → α × α)
    (gibbs : Fin nbase → List (Fin nd → α)) : Fin nbase → Fin nd → α :=
  fun b =>
    if ∀ f t, vis_I b f t = (0, 0) then fun _ => 0
    else np_fftshift nd fun i =>
      np_median ((pySliceLast (nsamp / 2) (gibbs b)).map fun s => s i)

/-- The visibility container consumed by `DelayFilter.process`: visibilities,
weights and the frequency-centre axis of a SiderealStream, with `nf`
frequencies, `nb` correlation products and `nt` time samples.  The MPI
distribution of the container is not modelled. -/
structure SStream (nf nb nt : ℕ) where
  vis : Fin nf → Fin nb → Fin nt → ℂ
  weight : Fin nf → Fin nb → Fin nt → ℝ
  freqCentre : Fin nf → ℝ

/-- Embedding of `DelayFilter.process` (delay.py lines 26-55).  In Python 2
the statement `raise NotImplemented("...")` first calls the non-callable
singleton `NotImplemented`, so when `update_weight` is set the method raises
a TypeError (not a NotImplementedError) before touching the data.  Otherwise
every baseline gets its visibilities replaced by `dot(NF, vis)`, where `NF`
is the null-delay filter built from the time-median of the weights of that
baseline; the weights and the frequency axis are not written.  The SVD
factors inside `null_delay_filter` are supplied per baseline by the oracle
`p`, as above. -/
noncomputable def DelayFilter_process (m nb nt : ℕ) (update_weight : Bool)
    (kk : Fin nb → ℕ) (p : (b : Fin nb) → Matrix (Fin (m + 1)) (Fin (kk b)) ℂ)
    (ss : SStream (m + 1) nb nt) : Except PyError (SStream (m + 1) nb nt) :=
  if update_weight then
    Except.error (PyError.typeError "NotImplementedType object is not callable")
  else
    Except.ok
      { vis := fun f b t => ∑ f2,
          null_delay_filter m ss.freqCentre
            (fun j => np_median (List.ofFn fun u => ss.weight j b u)) (p b) true f f2
            * ss.vis f2 b t
        weight := ss.weight
        freqCentre := ss.freqCentre }

/-- Concrete input for settling claim C3: two delay samples, one time
column, the full channel selection of `N = 2`, zero data, unit noise
weights, the flat positive starting spectrum `10`, all random draws zero
and all chi-squared draws one. -/
noncomputable def cexGibbs : GibbsInput 2 1 2 where
  fa := fun x => x
  data := 0
  Ni := fun _ => 1
  initial_S := fun _ => 10
  window := true
  dsamp := fun _ => 0
  w1 := fun _ => 0
  w2 := fun _ => 0
  chi2 := fun _ _ => 1

/-- Small concrete sampler input used to witness the draw-count property. -/
noncomputable def c8gibbsInput : GibbsInput 1 1 1 where
  fa := fun x => x
  data := 0
  Ni := fun _ => 0
  initial_S := fun _ => 1
  window := false
  dsamp := fun _ => 0
  w1 := fun _ => 0
  w2 := fun _ => 0
  chi2 := fun _ _ => 1

/-- All-zero Stokes I data of a single baseline (witness input for C7). -/
def c7vis : Fin 1 → Fin 1 → Fin 1 → ℚ × ℚ := fun _ _ _ => (0, 0)

/-- A sampler oracle with a nonzero sample (witness input for C7). -/
def c7gibbs : Fin 1 → List (Fin 1 → ℚ) := fun _ => [fun _ => 7]

/-- Nonzero Stokes I data of a single baseline (witness input for C8). -/
def c8vis : Fin 1 → Fin 1 → Fin 1 → ℚ × ℚ := fun _ _ _ => (1, 0)

/-- A two-sample sampler oracle (witness input for C8, `nsamp = 2`). -/
def c8gibbs : Fin 1 → List (Fin 1 → ℚ) := fun _ => [fun _ => 3, fun _ => 5]

/-- Concrete frequency axis for settling claim C2: four channels whose
normalised locations are `0, 1/4, 3/4, 1`. -/
noncomputable def c2Freq : Fin 4 → ℝ := ![0, 1 / 4, 3 / 4, 1]

/-- Concrete mask for settling claim C2.  The nuttall window of the two
interior channels is `0.211536`, so this mask makes `mask * w` equal to
`(0, 2, 2, 0)`. -/
noncomputable def c2Mask : Fin 4 → ℝ := ![1, 2 / 0.211536, 2 / 0.211536, 1]

/-- Concrete retained-singular-vector factor for settling claim C2: one
orthonormal column supported on the two interior channels.  It is the top
left singular vector that `la.svd` produces for the design matrix of the
axis `c2Freq` with the mask `c2Mask`, two candidate delays of opposite sign
and a tolerance large enough to discard the second singular value. -/
noncomputable def c2P : Matrix (Fin 4) (Fin 1) ℂ :=
  Matrix.of ![![0], ![(((Real.sqrt 2)⁻¹ : ℝ) : ℂ)], ![(((Real.sqrt 2)⁻¹ : ℝ) : ℂ)], ![0]]

/-- Concrete frequency axis for the claim C9 witness, with normalised
locations `0, 1/2, 1`. -/
noncomputable def c9freq : Fin 3 → ℝ := ![0, 1 / 2, 1]

/-- Concrete singular-value vector for the claim C9 witness. -/
noncomputable def c9sig : Fin 1 → ℝ := ![1]

/-- Concrete per-baseline SVD oracle sizes for the claim C10 witness. -/
def c10kk : Fin 1 → ℕ := fun _ => 0

/-- Concrete per-baseline SVD oracle for the claim C10 witness: the empty
factor, giving the identity projector. -/
noncomputable def c10P : (b : Fin 1) → Matrix (Fin 1) (Fin (c10kk b)) ℂ := fun _ => 0

/-- Concrete one-channel stream for the claim C10 witness. -/
noncomputable def c10Stream : SStream 1 1 1 where
  vis := fun _ _ _ => 1
  weight := fun _ _ _ => 1
  freqCentre := fun _ => 0

/-- The stream that `DelayFilter.process` produces from `c10Stream`:
visibilities filtered, weights and frequency axis untouched. -/
noncomputable def c10Out : SStream 1 1 1 where
  vis := fun f b t => ∑ f2,
    null_delay_filter 0 c10Stream.freqCentre
      (fun j => np_median (List.ofFn fun u => c10Stream.weight j b u)) (c10P b) true f f2
      * c10Stream.vis f2 b t
  weight := c10Stream.weight
  freqCentre := c10Stream.freqCentre

/-! ### Helper lemmas for the Fourier round-trip identity -/

theorem sum_range_two_mul (n : ℕ) (g : ℕ → ℝ) :
    ∑ i ∈ Finset.range (2 * n), g i = ∑ f ∈ Finset.range n, (g (2 * f) + g (2 * f + 1)) := by
  induction n with
  | zero => simp
  | succ n ih =>
    have h : 2 * (n + 1) = (2 * n + 1) + 1 := by ring
    rw [h, Finset.sum_range_succ, Finset.sum_range_succ, ih, Finset.sum_range_succ]
    rw [add_assoc]

theorem exp_sum_eq_zero (n : ℕ) (k : ℤ) (hn : 0 < n) (hk : ¬ ((n : ℤ) ∣ k)) :
    ∑ f ∈ Finset.range n, Complex.exp (2 * (Real.pi : ℂ) * Complex.I * k * f / n) = 0 := by
  have hn0 : (n : ℂ) ≠ 0 := Nat.cast_ne_zero.mpr hn.ne'
  have hπ : (Real.pi : ℂ) ≠ 0 := Complex.ofReal_ne_zero.mpr Real.pi_ne_zero
  have hqty : (2 * (Real.pi : ℂ) * Complex.I) ≠ 0 :=
    mul_ne_zero (mul_ne_zero two_ne_zero hπ) Complex.I_ne_zero
  set z : ℂ := Complex.exp (2 * (Real.pi : ℂ) * Complex.I * k / n) with hz
  have hpow : ∀ f : ℕ, Complex.exp (2 * (Real.pi : ℂ) * Complex.I * k * f / n) = z ^ f := by
    intro f
    rw [hz, ← Complex.exp_nat_mul]
    congr 1
    field_simp
    ring
  have hz1 : z ≠ 1 := by
    intro h
    rw [hz, Complex.exp_eq_one_iff] at h
    obtain ⟨m, hm⟩ := h
    apply hk
    refine ⟨m, ?_⟩
    have h1 : (2 * (Real.pi : ℂ) * Complex.I) * ((k : ℂ) / n)
        = (2 * (Real.pi : ℂ) * Complex.I) * (m : ℂ) := by
      rw [mul_div_assoc] at hm
      rw [hm]
      ring
    have h2 : (k : ℂ) / n = (m : ℂ) := mul_left_cancel₀ hqty h1
    have h3 : (k : ℂ) = (n : ℂ) * (m : ℂ) := by
      field_simp at h2
      linear_combination h2
    exact_mod_cast h3
  have hsum : ∑ f ∈ Finset.range n, Complex.exp (2 * (Real.pi : ℂ) * Complex.I * k * f / n)
      = ∑ f ∈ Finset.range n, z ^ f :=
    Finset.sum_congr rfl fun f _ => hpow f
  rw [hsum, geom_sum_eq hz1 n]
  have hzn : z ^ n = 1 := by
    rw [hz, ← Complex.exp_nat_mul]
    have harg : (n : ℂ) * (2 * (Real.pi : ℂ) * Complex.I * k / n)
        = (k : ℂ) * (2 * (Real.pi : ℂ) * Complex.I) := by
      field_simp
      ring
    rw [harg]
    exact Complex.exp_int_mul_two_pi_mul_I k
  rw [hzn]
  simp

theorem cos_sum_int (n : ℕ) (k : ℤ) (hn : 0 < n) :
    ∑ f ∈ Finset.range n, Real.cos (2 * Real.pi * k * f / n) =
      if (n : ℤ) ∣ k then (n : ℝ) else 0 := by
  have hn0 : (n : ℝ) ≠ 0 := Nat.cast_ne_zero.mpr hn.ne'
  by_cases h : (n : ℤ) ∣ k
  · obtain ⟨m, hm⟩ := h
    have hone : ∀ f ∈ Finset.range n, Real.cos (2 * Real.pi * k * f / n) = 1 := by
      intro f _
      have hk : (k : ℝ) = (n : ℝ) * (m : ℝ) := by exact_mod_cast congrArg Int.cast hm
      have harg : 2 * Real.pi * (k : ℝ) * f / n = ((m * f : ℤ) : ℝ) * (2 * Real.pi) := by
        rw [hk]
        push_cast
        field_simp
        ring
      rw [harg, Real.cos_int_mul_two_pi]
    rw [Finset.sum_congr rfl hone, if_pos ⟨m, hm⟩]
    simp
  · rw [if_neg h]
    have hre : ∀ f : ℕ, Real.cos (2 * Real.pi * k * f / n) =
        (Complex.exp (2 * (Real.pi : ℂ) * Complex.I * k * f / n)).re := by
      intro f
      rw [← Complex.exp_ofReal_mul_I_re (2 * Real.pi * k * f / n)]
      congr 2
      push_cast
      ring
    rw [Finset.sum_congr rfl fun f _ => hre f, ← Complex.re_sum,
      exp_sum_eq_zero n k hn h]
    simp

theorem cos_reflect (n : ℕ) (k : ℤ) (a : ℕ) (ha : a ≤ n) (hn0 : (n : ℝ) ≠ 0) :
    Real.cos (2 * Real.pi * k * ((n - a : ℕ) : ℝ) / n) =
      Real.cos (2 * Real.pi * k * a / n) := by
  have hcast : ((n - a : ℕ) : ℝ) = (n : ℝ) - a := by
    push_cast [Nat.cast_sub ha]
    ring
  rw [hcast]
  have harg : 2 * Real.pi * (k : ℝ) * ((n : ℝ) - a) / n
      = ((k : ℤ) : ℝ) * (2 * Real.pi) - 2 * Real.pi * k * a / n := by
    field_simp
    ring
  rw [harg, Real.cos_sub, Real.cos_int_mul_two_pi]
  have hsin : Real.sin (((k : ℤ) : ℝ) * (2 * Real.pi)) = 0 := by
    have : ((k : ℤ) : ℝ) * (2 * Real.pi) = ((2 * k : ℤ) : ℝ) * Real.pi := by
      push_cast
      ring
    rw [this, Real.sin_int_mul_pi]
  rw [hsin]
  ring

theorem fourier_mul_cos_sum (M : ℕ) (hM : 0 < M) (k : ℤ) :
    ∑ f ∈ Finset.range (M + 1),
        fourier_mul (2 * M) f * Real.cos (2 * Real.pi * k * f / ((2 * M : ℕ) : ℝ)) =
      if ((2 * M : ℕ) : ℤ) ∣ k then 1 else 0 := by
  have hn : 0 < 2 * M := by omega
  have hn0 : ((2 * M : ℕ) : ℝ) ≠ 0 := Nat.cast_ne_zero.mpr hn.ne'
  have hdiv : 2 * M / 2 = M := by omega
  have hsplit : ∀ f ∈ Finset.range (M + 1),
      fourier_mul (2 * M) f * Real.cos (2 * Real.pi * k * f / ((2 * M : ℕ) : ℝ))
        = (1 / ((2 * M : ℕ) : ℝ)) * Real.cos (2 * Real.pi * k * f / ((2 * M : ℕ) : ℝ))
          + (if f = 0 ∨ f = M then 0
             else (1 / ((2 * M : ℕ) : ℝ))
                * Real.cos (2 * Real.pi * k * f / ((2 * M : ℕ) : ℝ))) := by
    intro f _
    unfold fourier_mul
    rw [hdiv]
    by_cases h : f = 0 ∨ f = M
    · rw [if_pos h, if_pos h]
      ring
    · rw [if_neg h, if_neg h]
      ring
  rw [Finset.sum_congr rfl hsplit, Finset.sum_add_distrib]
  have hfilter : ((Finset.range (M + 1)).filter fun f => ¬(f = 0 ∨ f = M))
      = Finset.Ico 1 M := by
    ext a
    simp only [Finset.mem_filter, Finset.mem_range, Finset.mem_Ico]
    omega
  have hsecond : ∑ f ∈ Finset.range (M + 1),
      (if f = 0 ∨ f = M then 0
       else (1 / ((2 * M : ℕ) : ℝ)) * Real.cos (2 * Real.pi * k * f / ((2 * M : ℕ) : ℝ)))
      = ∑ f ∈ Finset.Ico 1 M,
        (1 / ((2 * M : ℕ) : ℝ)) * Real.cos (2 * Real.pi * k * f / ((2 * M : ℕ) : ℝ)) := by
    rw [← hfilter, Finset.sum_filter]
    refine Finset.sum_congr rfl fun f _ => ?_
    by_cases h : f = 0 ∨ f = M
    · simp [h]
    · simp [h]
  rw [hsecond]
  have hreflect : ∑ f ∈ Finset.Ico 1 M,
      (1 / ((2 * M : ℕ) : ℝ)) * Real.cos (2 * Real.pi * k * f / ((2 * M : ℕ) : ℝ))
      = ∑ f ∈ Finset.Ico (M + 1) (2 * M),
        (1 / ((2 * M : ℕ) : ℝ)) * Real.cos (2 * Real.pi * k * f / ((2 * M : ℕ) : ℝ)) := by
    refine Finset.sum_nbij' (fun a => 2 * M - a) (fun a => 2 * M - a) ?_ ?_ ?_ ?_ ?_
    · intro a hamem
      rw [Finset.mem_Ico] at hamem ⊢
      dsimp only
      omega
    · intro a hamem
      rw [Finset.mem_Ico] at hamem ⊢
      dsimp only
      omega
    · intro a hamem
      rw [Finset.mem_Ico] at hamem
      dsimp only
      omega
    · intro a hamem
      rw [Finset.mem_Ico] at hamem
      dsimp only
      omega
    · intro a hamem
      rw [Finset.mem_Ico] at hamem
      dsimp only
      rw [cos_reflect (2 * M) k a (by omega) hn0]
  rw [hreflect, ← Finset.mul_sum, ← Finset.mul_sum]
  have hjoin : ∑ f ∈ Finset.range (M + 1), Real.cos (2 * Real.pi * k * f / ((2 * M : ℕ) : ℝ))
        + ∑ f ∈ Finset.Ico (M + 1) (2 * M), Real.cos (2 * Real.pi * k * f / ((2 * M : ℕ) : ℝ))
      = ∑ f ∈ Finset.range (2 * M), Real.cos (2 * Real.pi * k * f / ((2 * M : ℕ) : ℝ)) := by
    simp only [Finset.range_eq_Ico]
    exact Finset.sum_Ico_consecutive _ (by omega) (by omega)
  have hgoal : (1 / ((2 * M : ℕ) : ℝ))
        * ∑ f ∈ Finset.range (M + 1), Real.cos (2 * Real.pi * k * f / ((2 * M : ℕ) : ℝ))
        + (1 / ((2 * M : ℕ) : ℝ))
        * ∑ f ∈ Finset.Ico (M + 1) (2 * M), Real.cos (2 * Real.pi * k * f / ((2 * M : ℕ) : ℝ))
      = (1 / ((2 * M : ℕ) : ℝ))
        * ∑ f ∈ Finset.range (2 * M), Real.cos (2 * Real.pi * k * f / ((2 * M : ℕ) : ℝ)) := by
    rw [← hjoin]
    ring
  rw [hgoal, cos_sum_int (2 * M) k hn]
  by_cases h : ((2 * M : ℕ) : ℤ) ∣ k
  · rw [if_pos h, if_pos h]
    field_simp
  · rw [if_neg h, if_neg h]
    ring

theorem pair_entry (N : ℕ) (t u f : ℕ) :
    c2r_entry N (fun x => x) t (2 * f) * r2c_entry N (fun x => x) (2 * f) u
      + c2r_entry N (fun x => x) t (2 * f + 1) * r2c_entry N (fun x => x) (2 * f + 1) u
    = fourier_mul N f * Real.cos (2 * Real.pi * ((t : ℝ) - (u : ℝ)) * f / (N : ℝ)) := by
  unfold c2r_entry r2c_entry
  have h1 : (2 * f) % 2 = 0 := by omega
  have h2 : (2 * f) / 2 = f := by omega
  have h3 : (2 * f + 1) % 2 = 1 := by omega
  have h4 : (2 * f + 1) / 2 = f := by omega
  simp only [h1, h2, h3, h4, if_pos, one_ne_zero, if_neg, reduceIte]
  have harg : 2 * Real.pi * ((t : ℝ) - (u : ℝ)) * f / (N : ℝ)
      = 2 * Real.pi * (t : ℝ) * f / N - 2 * Real.pi * (u : ℝ) * f / N := by
    ring
  rw [harg, Real.cos_sub]
  ring

theorem c2r_mul_r2c_full (M : ℕ) (hM : 0 < M) :
    fourier_matrix_c2r (2 * M) (M + 1) (fun f => f)
      * fourier_matrix_r2c (2 * M) (M + 1) (fun f => f) = 1 := by
  ext t u
  rw [Matrix.mul_apply, Matrix.one_apply]
  simp only [fourier_matrix_c2r, fourier_matrix_r2c, Matrix.of_apply]
  rw [Fin.sum_univ_eq_sum_range
    (fun jn => c2r_entry (2 * M) (fun f => f) (t : ℕ) jn
      * r2c_entry (2 * M) (fun f => f) jn (u : ℕ)) (2 * (M + 1))]
  rw [sum_range_two_mul]
  have hpt : ∀ f ∈ Finset.range (M + 1),
      c2r_entry (2 * M) (fun x => x) (t : ℕ) (2 * f)
          * r2c_entry (2 * M) (fun x => x) (2 * f) (u : ℕ)
        + c2r_entry (2 * M) (fun x => x) (t : ℕ) (2 * f + 1)
          * r2c_entry (2 * M) (fun x => x) (2 * f + 1) (u : ℕ)
      = fourier_mul (2 * M) f
          * Real.cos (2 * Real.pi * (((((t : ℕ) : ℤ) - ((u : ℕ) : ℤ)) : ℤ) : ℝ)
              * f / ((2 * M : ℕ) : ℝ)) := by
    intro f _
    rw [pair_entry (2 * M) (t : ℕ) (u : ℕ) f]
    push_cast
    ring_nf
  rw [Finset.sum_congr rfl hpt,
    fourier_mul_cos_sum M hM (((t : ℕ) : ℤ) - ((u : ℕ) : ℤ))]
  by_cases htu : t = u
  · subst htu
    rw [if_pos rfl, if_pos (by simp)]
  · rw [if_neg htu, if_neg ?_]
    intro hdvd
    apply htu
    have ht := t.isLt
    have hu := u.isLt
    have hz : ((t : ℕ) : ℤ) - ((u : ℕ) : ℤ) = 0 := by
      refine Int.eq_zero_of_abs_lt_dvd hdvd ?_
      rw [abs_lt]
      omega
    have : (t : ℕ) = (u : ℕ) := by omega
    exact Fin.ext this

/-- Claim C1: for every even `N`, with the full default channel selection
`0 .. N / 2`, the product of the complex-to-real and the real-to-complex
Fourier design matrices is the `N` by `N` identity, so the round trip
reconstructs every length `N` real series exactly (the floating-point
tolerance of the specification is idealised away by working in `ℝ`). -/
theorem fourier_c2r_r2c_roundtrip (N : ℕ) (hN : Even N) :
    fourier_matrix_c2r N (N / 2 + 1) (fun f => f)
      * fourier_matrix_r2c N (N / 2 + 1) (fun f => f) = 1 := by
  obtain ⟨M, hMdef⟩ := hN
  have h2 : N = 2 * M := by omega
  subst h2
  rcases Nat.eq_zero_or_pos M with h0 | hMpos
  · subst h0
    ext t u
    exact absurd t.isLt (by omega)
  · have hdiv : 2 * M / 2 + 1 = M + 1 := by omega
    rw [hdiv]
    exact c2r_mul_r2c_full M hMpos

/-- Witness for claim C1 at the concrete even length `N = 2`. -/
theorem fourier_c2r_r2c_roundtrip_witness :
    Even 2 ∧
      fourier_matrix_c2r 2 (2 / 2 + 1) (fun f => f)
        * fourier_matrix_r2c 2 (2 / 2 + 1) (fun f => f) = 1 :=
  ⟨by decide, fourier_c2r_r2c_roundtrip 2 (by decide)⟩

/-! ### Helper lemmas for concrete window evaluations -/

theorem cos_nat_mul_two_pi (n : ℕ) : Real.cos (2 * Real.pi * n) = 1 := by
  have h : 2 * Real.pi * (n : ℝ) = ((n : ℤ) : ℝ) * (2 * Real.pi) := by
    push_cast
    ring
  rw [h, Real.cos_int_mul_two_pi]

theorem cos_three_pi_div_two : Real.cos (3 * Real.pi / 2) = 0 := by
  have h : 3 * Real.pi / 2 = -(Real.pi / 2) + 2 * Real.pi := by ring
  rw [h, Real.cos_add_two_pi, Real.cos_neg, Real.cos_pi_div_two]

theorem cos_three_pi : Real.cos (3 * Real.pi) = -1 := by
  have h : 3 * Real.pi = Real.pi + 2 * Real.pi := by ring
  rw [h, Real.cos_add_two_pi, Real.cos_pi]

theorem cos_nine_pi_div_two : Real.cos (9 * Real.pi / 2) = 0 := by
  have h : 9 * Real.pi / 2 = Real.pi / 2 + 2 * Real.pi + 2 * Real.pi := by ring
  rw [h, Real.cos_add_two_pi, Real.cos_add_two_pi, Real.cos_pi_div_two]

theorem window_sum_expand (a : Fin 4 → ℝ) (x : ℝ) :
    window_sum a x = a 0 * Real.cos (2 * Real.pi * 0 * x)
      + a 1 * Real.cos (2 * Real.pi * 1 * x)
      + a 2 * Real.cos (2 * Real.pi * 2 * x)
      + a 3 * Real.cos (2 * Real.pi * 3 * x) := by
  unfold window_sum
  rw [Fin.sum_univ_four]
  have h0 : ((0 : Fin 4) : ℕ) = 0 := rfl
  have h1 : ((1 : Fin 4) : ℕ) = 1 := rfl
  have h2 : ((2 : Fin 4) : ℕ) = 2 := rfl
  have h3 : ((3 : Fin 4) : ℕ) = 3 := rfl
  rw [h0, h1, h2, h3]
  push_cast
  ring

theorem window_sum_at_zero (a : Fin 4 → ℝ) : window_sum a 0 = a 0 + a 1 + a 2 + a 3 := by
  rw [window_sum_expand]
  simp

theorem window_sum_at_one (a : Fin 4 → ℝ) : window_sum a 1 = a 0 + a 1 + a 2 + a 3 := by
  rw [window_sum_expand]
  rw [show 2 * Real.pi * 0 * (1 : ℝ) = 2 * Real.pi * ((0 : ℕ) : ℝ) by push_cast; ring,
    show 2 * Real.pi * 1 * (1 : ℝ) = 2 * Real.pi * ((1 : ℕ) : ℝ) by push_cast; ring,
    show 2 * Real.pi * 2 * (1 : ℝ) = 2 * Real.pi * ((2 : ℕ) : ℝ) by push_cast; ring,
    show 2 * Real.pi * 3 * (1 : ℝ) = 2 * Real.pi * ((3 : ℕ) : ℝ) by push_cast; ring,
    cos_nat_mul_two_pi, cos_nat_mul_two_pi, cos_nat_mul_two_pi, cos_nat_mul_two_pi]
  ring

theorem window_sum_at_half (a : Fin 4 → ℝ) :
    window_sum a (1 / 2) = a 0 - a 1 + a 2 - a 3 := by
  rw [window_sum_expand]
  rw [show 2 * Real.pi * 0 * (1 / 2 : ℝ) = 0 by ring,
    show 2 * Real.pi * 1 * (1 / 2 : ℝ) = Real.pi by ring,
    show 2 * Real.pi * 2 * (1 / 2 : ℝ) = 2 * Real.pi by ring,
    show 2 * Real.pi * 3 * (1 / 2 : ℝ) = 3 * Real.pi by ring,
    Real.cos_zero, Real.cos_pi, Real.cos_two_pi, cos_three_pi]
  ring

theorem window_sum_at_quarter (a : Fin 4 → ℝ) :
    window_sum a (1 / 4) = a 0 - a 2 := by
  rw [window_sum_expand]
  rw [show 2 * Real.pi * 0 * (1 / 4 : ℝ) = 0 by ring,
    show 2 * Real.pi * 1 * (1 / 4 : ℝ) = Real.pi / 2 by ring,
    show 2 * Real.pi * 2 * (1 / 4 : ℝ) = Real.pi by ring,
    show 2 * Real.pi * 3 * (1 / 4 : ℝ) = 3 * Real.pi / 2 by ring,
    Real.cos_zero, Real.cos_pi_div_two, Real.cos_pi, cos_three_pi_div_two]
  ring

theorem window_sum_at_three_quarter (a : Fin 4 → ℝ) :
    window_sum a (3 / 4) = a 0 - a 2 := by
  rw [window_sum_expand]
  rw [show 2 * Real.pi * 0 * (3 / 4 : ℝ) = 0 by ring,
    show 2 * Real.pi * 1 * (3 / 4 : ℝ) = 3 * Real.pi / 2 by ring,
    show 2 * Real.pi * 2 * (3 / 4 : ℝ) = 3 * Real.pi by ring,
    show 2 * Real.pi * 3 * (3 / 4 : ℝ) = 9 * Real.pi / 2 by ring,
    Real.cos_zero, cos_three_pi_div_two, cos_three_pi, cos_nine_pi_div_two]
  ring

/-- Claim C4: for every even `N` and channel selection `fa`, the column pair
of `fourier_matrix_c2r` belonging to the selected channel `f = fa i` carries
the normalisation `1 / N` when `f` is the DC or Nyquist index (`0` or
`N / 2`) and `2 / N` otherwise, multiplying the basis entries
`cos(2 pi t f / N)` and `-sin(2 pi t f / N)`. -/
theorem fourier_c2r_normalisation (N nf : ℕ) (hN : Even N) (fa : ℕ → ℕ)
    (t : Fin N) (i : ℕ) (hi : i < nf) :
    fourier_matrix_c2r N nf fa t ⟨2 * i, by omega⟩
        = (if fa i = 0 ∨ fa i = N / 2 then 1 / (N : ℝ) else 2 / (N : ℝ))
          * Real.cos (2 * Real.pi * t * (fa i) / N)
      ∧ fourier_matrix_c2r N nf fa t ⟨2 * i + 1, by omega⟩
        = (if fa i = 0 ∨ fa i = N / 2 then 1 / (N : ℝ) else 2 / (N : ℝ))
          * (-Real.sin (2 * Real.pi * t * (fa i) / N)) := by
  have h1 : (2 * i) % 2 = 0 := by omega
  have h2 : (2 * i) / 2 = i := by omega
  have h3 : (2 * i + 1) % 2 = 1 := by omega
  have h4 : (2 * i + 1) / 2 = i := by omega
  constructor
  · show c2r_entry N fa (t : ℕ) (2 * i) = _
    unfold c2r_entry fourier_mul
    simp only [h1, h2, reduceIte]
    by_cases h : fa i = 0 ∨ fa i = N / 2
    · rw [if_pos h, if_pos h]
      ring
    · rw [if_neg h, if_neg h]
      ring
  · show c2r_entry N fa (t : ℕ) (2 * i + 1) = _
    unfold c2r_entry fourier_mul
    simp only [h3, h4, one_ne_zero, reduceIte]
    by_cases h : fa i = 0 ∨ fa i = N / 2
    · rw [if_pos h, if_pos h]
      ring
    · rw [if_neg h, if_neg h]
      ring

/-- Witness for claim C4 at `N = 4` with the full selection, channel pair
`i = 2` (the Nyquist channel) and time sample `t = 1`. -/
theorem fourier_c2r_normalisation_witness :
    Even 4 ∧ 2 < 3 ∧
      (fourier_matrix_c2r 4 3 (fun x => x) 1 ⟨2 * 2, by omega⟩
          = (if (fun x => x) 2 = 0 ∨ (fun x => x) 2 = 4 / 2 then 1 / (4 : ℝ) else 2 / (4 : ℝ))
            * Real.cos (2 * Real.pi * (1 : Fin 4) * ((fun x => x) 2) / 4)
        ∧ fourier_matrix_c2r 4 3 (fun x => x) 1 ⟨2 * 2 + 1, by omega⟩
          = (if (fun x => x) 2 = 0 ∨ (fun x => x) 2 = 4 / 2 then 1 / (4 : ℝ) else 2 / (4 : ℝ))
            * (-Real.sin (2 * Real.pi * (1 : Fin 4) * ((fun x => x) 2) / 4))) :=
  ⟨by decide, by decide, fourier_c2r_normalisation 4 3 (by decide) (fun x => x) 1 2 (by decide)⟩

/-- Claim C6, corrected: the counterexample.  An unsupported window family
name makes `window_generalised` fail with a KeyError (the missing dictionary
key), not with the InvalidConfiguration error that the specification
promises. -/
theorem window_generalised_unknown_counterexample :
    window_generalised [(0 : ℝ)] "hamming" = Except.error (PyError.keyError "hamming")
      ∧ window_generalised [(0 : ℝ)] "hamming"
          ≠ Except.error PyError.invalidConfiguration := by
  constructor
  · rfl
  · intro h
    simp [window_generalised, a_table] at h

/-- Claim C6, amended: an unknown window family name fails with a KeyError
for every array of sample locations, and each of the three supported names
returns, at every location `x`, the finite cosine sum
`sum_k a_k cos(2 pi k x)` with the coefficients of that family. -/
theorem window_generalised_spec (x : List ℝ) (name : String)
    (hname : name ≠ "nuttall" ∧ name ≠ "blackman_nuttall" ∧ name ≠ "blackman_harris") :
    window_generalised x name = Except.error (PyError.keyError name)
      ∧ window_generalised x "nuttall"
          = Except.ok (x.map fun xi => ∑ k : Fin 4, nuttall_a k * Real.cos (2 * Real.pi * (k : ℕ) * xi))
      ∧ window_generalised x "blackman_nuttall"
          = Except.ok (x.map fun xi =>
              ∑ k : Fin 4, blackman_nuttall_a k * Real.cos (2 * Real.pi * (k : ℕ) * xi))
      ∧ window_generalised x "blackman_harris"
          = Except.ok (x.map fun xi =>
              ∑ k : Fin 4, blackman_harris_a k * Real.cos (2 * Real.pi * (k : ℕ) * xi)) := by
  obtain ⟨h1, h2, h3⟩ := hname
  refine ⟨?_, rfl, rfl, rfl⟩
  unfold window_generalised a_table
  rw [if_neg h1, if_neg h2, if_neg h3]

/-- Witness for the amended claim C6 at a concrete location list and the
unsupported name hamming. -/
theorem window_generalised_spec_witness :
    ("hamming" ≠ "nuttall" ∧ "hamming" ≠ "blackman_nuttall" ∧ "hamming" ≠ "blackman_harris")
      ∧ (window_generalised [(0 : ℝ), 1] "hamming"
            = Except.error (PyError.keyError "hamming")
          ∧ window_generalised [(0 : ℝ), 1] "nuttall"
              = Except.ok ([(0 : ℝ), 1].map fun xi =>
                  ∑ k : Fin 4, nuttall_a k * Real.cos (2 * Real.pi * (k : ℕ) * xi))
          ∧ window_generalised [(0 : ℝ), 1] "blackman_nuttall"
              = Except.ok ([(0 : ℝ), 1].map fun xi =>
                  ∑ k : Fin 4, blackman_nuttall_a k * Real.cos (2 * Real.pi * (k : ℕ) * xi))
          ∧ window_generalised [(0 : ℝ), 1] "blackman_harris"
              = Except.ok ([(0 : ℝ), 1].map fun xi =>
                  ∑ k : Fin 4, blackman_harris_a k * Real.cos (2 * Real.pi * (k : ℕ) * xi))) :=
  ⟨by decide, window_generalised_spec [(0 : ℝ), 1] "hamming" (by decide)⟩

/-! ### Helper lemmas for the concrete null-delay-filter inputs -/

theorem sqrt_two_inv_mul : ((Real.sqrt 2)⁻¹ : ℝ) * (Real.sqrt 2)⁻¹ = 1 / 2 := by
  rw [← mul_inv, Real.mul_self_sqrt (by norm_num : (0 : ℝ) ≤ 2)]
  norm_num

theorem sqrt_two_inv_mul_c :
    (((Real.sqrt 2 : ℝ) : ℂ))⁻¹ * (((Real.sqrt 2 : ℝ) : ℂ))⁻¹ = 1 / 2 := by
  rw [← mul_inv, ← Complex.ofReal_mul, Real.mul_self_sqrt (by norm_num : (0 : ℝ) ≤ 2)]
  norm_num

theorem c2Freq_min : freqMin c2Freq = 0 := by
  unfold freqMin
  apply le_antisymm
  · calc Finset.univ.inf' Finset.univ_nonempty c2Freq ≤ c2Freq 0 :=
          Finset.inf'_le c2Freq (Finset.mem_univ 0)
      _ = 0 := by norm_num [c2Freq]
  · apply Finset.le_inf'
    intro b _
    fin_cases b <;> norm_num [c2Freq]

theorem c2Freq_sup : Finset.univ.sup' Finset.univ_nonempty c2Freq = 1 := by
  apply le_antisymm
  · apply Finset.sup'_le
    intro b _
    fin_cases b <;> norm_num [c2Freq]
  · calc (1 : ℝ) = c2Freq 3 := by norm_num [c2Freq]
      _ ≤ Finset.univ.sup' Finset.univ_nonempty c2Freq :=
          Finset.le_sup' c2Freq (Finset.mem_univ 3)

theorem c2Freq_ptp : freqPtp c2Freq = 1 := by
  unfold freqPtp
  rw [c2Freq_sup, c2Freq_min]
  norm_num

theorem c2_x (j : Fin 4) : ndf_x c2Freq j = c2Freq j := by
  unfold ndf_x
  rw [c2Freq_min, c2Freq_ptp]
  simp

theorem c2_wm0 : c2Mask 0 * ndf_w c2Freq 0 = 0 := by
  unfold ndf_w
  rw [c2_x, show c2Freq 0 = 0 by norm_num [c2Freq], window_sum_at_zero]
  norm_num [c2Mask, nuttall_a]

theorem c2_wm1 : c2Mask 1 * ndf_w c2Freq 1 = 2 := by
  unfold ndf_w
  rw [c2_x, show c2Freq 1 = 1 / 4 by norm_num [c2Freq], window_sum_at_quarter]
  norm_num [c2Mask, nuttall_a]

theorem c2_wm2 : c2Mask 2 * ndf_w c2Freq 2 = 2 := by
  unfold ndf_w
  rw [c2_x, show c2Freq 2 = 3 / 4 by norm_num [c2Freq], window_sum_at_three_quarter]
  norm_num [c2Mask, nuttall_a]

theorem c2_wm3 : c2Mask 3 * ndf_w c2Freq 3 = 0 := by
  unfold ndf_w
  rw [c2_x, show c2Freq 3 = 1 by norm_num [c2Freq], window_sum_at_one]
  norm_num [c2Mask, nuttall_a]

theorem c2P_orthonormal : c2P.conjTranspose * c2P = 1 := by
  have hs : Real.sqrt 2 * Real.sqrt 2 = 2 := Real.mul_self_sqrt (by norm_num)
  ext i j
  fin_cases i
  fin_cases j
  simp [Matrix.mul_apply, Fin.sum_univ_four, Matrix.conjTranspose_apply, c2P,
    Matrix.one_apply, Complex.conj_ofReal, Complex.ext_iff]
  nlinarith [hs]

theorem c2PPH : c2P * c2P.conjTranspose
    = Matrix.of ![![0, 0, 0, 0], ![0, (1 / 2 : ℂ), 1 / 2, 0],
        ![0, 1 / 2, 1 / 2, 0], ![0, 0, 0, 0]] := by
  ext i j
  rw [Matrix.mul_apply, Fin.sum_univ_one, Matrix.conjTranspose_apply]
  fin_cases i <;> fin_cases j <;>
    simp [c2P, Complex.conj_ofReal, sqrt_two_inv_mul_c, Matrix.vecHead, Matrix.vecTail]

theorem c2M_eval :
    null_delay_filter 3 c2Freq c2Mask c2P true
      = Matrix.of ![![0, 0, 0, 0], ![0, 1, -1, 0], ![0, -1, 1, 0], ![0, 0, 0, 0]] := by
  ext i j
  unfold null_delay_filter
  rw [if_pos rfl, Matrix.of_apply, c2PPH, Matrix.sub_apply, Matrix.one_apply]
  fin_cases i <;> fin_cases j <;>
    simp [c2_wm0, c2_wm1, c2_wm2, c2_wm3, Matrix.vecHead, Matrix.vecTail] <;>
    norm_num [Complex.ext_iff]

/-- Claim C2, corrected: the counterexample.  With the default `window=True`
re-windowing, the matrix returned by `null_delay_filter` is not idempotent:
at the concrete four-channel axis `c2Freq` with the mask `c2Mask` and the
orthonormal SVD factor `c2P`, the square of the returned matrix differs from
the matrix itself by order one (entry `(1, 1)` is `2` instead of `1`), far
beyond floating-point tolerance. -/
theorem null_delay_filter_windowed_counterexample :
    c2P.conjTranspose * c2P = 1
      ∧ null_delay_filter 3 c2Freq c2Mask c2P true
          * null_delay_filter 3 c2Freq c2Mask c2P true
        ≠ null_delay_filter 3 c2Freq c2Mask c2P true := by
  refine ⟨c2P_orthonormal, ?_⟩
  intro h
  have h11 : (null_delay_filter 3 c2Freq c2Mask c2P true
        * null_delay_filter 3 c2Freq c2Mask c2P true) 1 1
      = null_delay_filter 3 c2Freq c2Mask c2P true 1 1 := by rw [h]
  rw [c2M_eval] at h11
  rw [Matrix.mul_apply, Fin.sum_univ_four] at h11
  simp only [Matrix.of_apply, Matrix.cons_val_zero, Matrix.cons_val_one, Matrix.head_cons,
    Matrix.cons_val', Matrix.empty_val', Matrix.cons_val_fin_one] at h11
  norm_num [Complex.ext_iff] at h11

/-- Claim C2, amended: without the re-windowing (`window=False`), the matrix
returned by `null_delay_filter` is `I - P P^H` for the orthonormal SVD
factor `P`, and it is idempotent: applying it twice equals applying it
once. -/
theorem null_delay_filter_unwindowed_idempotent (m k : ℕ) (freq mask : Fin (m + 1) → ℝ)
    (p : Matrix (Fin (m + 1)) (Fin k) ℂ) (hp : p.conjTranspose * p = 1) :
    null_delay_filter m freq mask p false * null_delay_filter m freq mask p false
      = null_delay_filter m freq mask p false := by
  show (1 - p * p.conjTranspose) * (1 - p * p.conjTranspose) = 1 - p * p.conjTranspose
  have key : (p * p.conjTranspose) * (p * p.conjTranspose) = p * p.conjTranspose := by
    calc (p * p.conjTranspose) * (p * p.conjTranspose)
        = p * ((p.conjTranspose * p) * p.conjTranspose) := by
          rw [Matrix.mul_assoc, Matrix.mul_assoc]
      _ = p * p.conjTranspose := by rw [hp, Matrix.one_mul]
  rw [mul_sub, sub_mul, sub_mul, one_mul, mul_one, key]
  abel_nf
  rw [one_mul]

/-- Witness for the amended claim C2 at the concrete orthonormal factor
`c2P`. -/
theorem null_delay_filter_unwindowed_idempotent_witness :
    c2P.conjTranspose * c2P = 1
      ∧ null_delay_filter 3 c2Freq c2Mask c2P false
          * null_delay_filter 3 c2Freq c2Mask c2P false
        = null_delay_filter 3 c2Freq c2Mask c2P false :=
  ⟨c2P_orthonormal,
    null_delay_filter_unwindowed_idempotent 3 1 c2Freq c2Mask c2P c2P_orthonormal⟩

/-- Claim C5 (code bug): with `update_weight` set, `DelayFilter.process`
does fail immediately and leaves the dataset untouched, but because
`NotImplemented` is not callable in Python the raised exception is a
TypeError, not the not-implemented error that the specification (and the
message string in the source) intend. -/
theorem delay_filter_update_weight_raises (m nb nt : ℕ) (kk : Fin nb → ℕ)
    (p : (b : Fin nb) → Matrix (Fin (m + 1)) (Fin (kk b)) ℂ)
    (ss : SStream (m + 1) nb nt) :
    DelayFilter_process m nb nt true kk p ss
      = Except.error (PyError.typeError "NotImplementedType object is not callable") :=
  rfl

/-! ### Helper lemmas for the concrete Gibbs input -/

theorem cexGibbs_data_zero : gibbs_data cexGibbs = 0 := by
  ext r c
  simp [gibbs_data, data_ri, cexGibbs]

theorem cexGibbs_valid : gibbs_solve_valid cexGibbs 1 := by
  intro k hk
  have hk0 : k = 0 := by omega
  subst hk0
  have hd : cexGibbs.dsamp 0 = 0 := rfl
  rw [hd, Matrix.mul_zero]
  unfold gibbs_y
  rw [cexGibbs_data_zero, Matrix.mul_zero]
  ext i j
  simp [cexGibbs, Matrix.mul_apply]

/-- Claim C3, corrected: the counterexample.  Modelling the random draws as
inputs, strict positivity of the returned power-spectrum samples fails: at
the concrete input `cexGibbs` (zero data, zero normal draws, chi-squared
draws all one, positive starting spectrum, solver contract satisfied), the
single returned sample is identically zero. -/
theorem gibbs_ps_positive_counterexample :
    ¬ (∀ (N nt nf : ℕ) (g : GibbsInput N nt nf) (niter : ℕ),
        gibbs_solve_valid g niter → (∀ i, 0 < g.initial_S i) →
        (∀ k i, 0 < g.chi2 k i) →
        ∀ s ∈ delay_spectrum_gibbs g niter, ∀ i, 0 < s i) := by
  intro h
  have hmem : gibbs_S_chain cexGibbs 1 ∈ delay_spectrum_gibbs cexGibbs 1 := by
    unfold delay_spectrum_gibbs
    simp
  have hpos := h 2 1 2 cexGibbs 1 cexGibbs_valid
    (by intro i; norm_num [cexGibbs]) (by intro k i; norm_num [cexGibbs])
    (gibbs_S_chain cexGibbs 1) hmem 0
  have hzero : gibbs_S_chain cexGibbs 1 0 = 0 := by
    show draw_ps_sample (cexGibbs.dsamp 0) (cexGibbs.chi2 0) 0 = 0
    unfold draw_ps_sample np_var
    simp [cexGibbs]
  rw [hzero] at hpos
  exact lt_irrefl 0 hpos

/-- Claim C3, amended: for every input of `delay_spectrum_gibbs` (random
draws modelled as inputs, chi-squared draws strictly positive, initial
spectrum positive, solver contract satisfied), every entry of every returned
power-spectrum sample is nonnegative; strict positivity fails exactly when
the per-delay sample variance of the drawn signal vanishes. -/
theorem gibbs_ps_nonneg (N nt nf : ℕ) (g : GibbsInput N nt nf) (niter : ℕ)
    (hvalid : gibbs_solve_valid g niter) (hS : ∀ i, 0 < g.initial_S i)
    (hchi : ∀ k i, 0 < g.chi2 k i) :
    ∀ s ∈ delay_spectrum_gibbs g niter, ∀ i, 0 ≤ s i := by
  intro s hs i
  unfold delay_spectrum_gibbs at hs
  rw [List.mem_map] at hs
  obtain ⟨k, hk, rfl⟩ := hs
  show 0 ≤ gibbs_S_chain g (k + 1) i
  show 0 ≤ draw_ps_sample (g.dsamp k) (g.chi2 k) i
  unfold draw_ps_sample
  apply div_nonneg
  · apply mul_nonneg
    · unfold np_var
      apply div_nonneg
      · apply Finset.sum_nonneg
        intro j _
        positivity
      · positivity
    · positivity
  · exact le_of_lt (hchi k i)

/-- Witness for the amended claim C3 at the concrete input `cexGibbs`. -/
theorem gibbs_ps_nonneg_witness :
    gibbs_solve_valid cexGibbs 1 ∧ (∀ i, 0 < cexGibbs.initial_S i)
      ∧ (∀ k i, 0 < cexGibbs.chi2 k i)
      ∧ ∀ s ∈ delay_spectrum_gibbs cexGibbs 1, ∀ i, 0 ≤ s i :=
  ⟨cexGibbs_valid, by intro i; norm_num [cexGibbs], by intro k i; norm_num [cexGibbs],
    gibbs_ps_nonneg 2 1 2 cexGibbs 1 cexGibbs_valid
      (by intro i; norm_num [cexGibbs]) (by intro k i; norm_num [cexGibbs])⟩

/-- Claim C7: in the per-baseline loop of `DelaySpectrumEstimator.process`,
a baseline whose extracted Stokes I data is identically zero keeps its
initial all-zero spectrum row, whatever the Gibbs sampler oracle would have
returned: the sampler result for that baseline is never consulted. -/
theorem estimator_zero_baseline_skipped {α : Type} [LinearOrderedField α] [DecidableEq α]
    (nbase nf nt nd nsamp : ℕ)
    (vis_I : Fin nbase → Fin nf → Fin nt → α × α)
    (gibbs : Fin nbase → List (Fin nd → α)) (b : Fin nbase)
    (hz : ∀ f t, vis_I b f t = (0, 0)) :
    DelaySpectrumEstimator_process nbase nf nt nd nsamp vis_I gibbs b = fun _ => 0 := by
  unfold DelaySpectrumEstimator_process
  rw [if_pos hz]

/-- Witness for claim C7 over `ℚ`: a single all-zero baseline with a nonzero
sampler oracle still yields the zero spectrum row. -/
theorem estimator_zero_baseline_skipped_witness :
    (∀ f t, c7vis 0 f t = (0, 0))
      ∧ DelaySpectrumEstimator_process 1 1 1 1 2 c7vis c7gibbs 0 = fun _ => 0 :=
  ⟨by decide, estimator_zero_baseline_skipped 1 1 1 1 2 c7vis c7gibbs 0 (by decide)⟩

/-- Claim C8: for a baseline with nonzero data, the stored spectrum is the
fftshift reordering of the per-delay-bin median over only the last
`nsamp / 2` of the `nsamp` Gibbs draws (`spec[-(nsamp / 2):]`, the earlier
draws being burn-in), provided `2 ≤ nsamp` so that the Python negative slice
indeed selects the later half; and the sampler returns exactly one sample
per iteration. -/
theorem estimator_burn_in_median {α : Type} [LinearOrderedField α] [DecidableEq α]
    (nbase nf nt nd nsamp : ℕ)
    (vis_I : Fin nbase → Fin nf → Fin nt → α × α)
    (gibbs : Fin nbase → List (Fin nd → α)) (b : Fin nbase)
    (N2 nt2 nf2 : ℕ) (g : GibbsInput N2 nt2 nf2) (niter : ℕ)
    (hz : ¬ ∀ f t, vis_I b f t = (0, 0))
    (hlen : (gibbs b).length = nsamp) (h2 : 2 ≤ nsamp) :
    DelaySpectrumEstimator_process nbase nf nt nd nsamp vis_I gibbs b
        = np_fftshift nd (fun i =>
            np_median (((gibbs b).drop (nsamp - nsamp / 2)).map fun s => s i))
      ∧ (delay_spectrum_gibbs g niter).length = niter := by
  constructor
  · unfold DelaySpectrumEstimator_process
    rw [if_neg hz]
    have hne : ¬ (nsamp / 2 = 0) := by omega
    simp only [pySliceLast, if_neg hne, hlen]
  · unfold delay_spectrum_gibbs
    rw [List.length_map, List.length_range]

/-- Witness for claim C8 over `ℚ`, with two draws and `nsamp = 2`. -/
theorem estimator_burn_in_median_witness :
    (¬ ∀ f t, c8vis 0 f t = (0, 0)) ∧ (c8gibbs 0).length = 2 ∧ 2 ≤ 2
      ∧ (DelaySpectrumEstimator_process 1 1 1 1 2 c8vis c8gibbs 0
            = np_fftshift 1 (fun i =>
                np_median (((c8gibbs 0).drop (2 - 2 / 2)).map fun s => s i))
          ∧ (delay_spectrum_gibbs c8gibbsInput 3).length = 3) :=
  ⟨by decide, by decide, by decide,
    estimator_burn_in_median 1 1 1 1 2 c8vis c8gibbs 0 1 1 1 c8gibbsInput 3
      (by decide) (by decide) (by decide)⟩

/-- Claim C9: for singular values satisfying the SVD contract (nonnegative,
with total square mass equal to the squared Frobenius mass of the windowed
and masked design matrix), a tolerance below one, and at least one nonzero
singular value, the strict test `sig > tol * sig.max()` always admits the
largest singular value, so at least one mode is removed; and a run removing
zero modes can happen only when the design matrix is identically zero. -/
theorem ndf_nmodes_spec (m ns nd : ℕ) (freq : Fin (m + 1) → ℝ) (mask : Fin (m + 1) → ℝ)
    (max_delay tol : ℝ) (sig : Fin (ns + 1) → ℝ)
    (hnn : ∀ i, 0 ≤ sig i) (htol : tol < 1)
    (hfrob : ∑ i, sig i ^ 2
      = ∑ j, ∑ d, Complex.normSq (ndf_F m nd freq mask max_delay j d)) :
    ((∃ i, sig i ≠ 0) → 1 ≤ ndf_nmodes sig tol)
      ∧ (ndf_nmodes sig tol = 0 → ndf_F m nd freq mask max_delay = 0) := by
  constructor
  · rintro ⟨i0, hi0⟩
    have hspos : 0 < Finset.univ.sup' Finset.univ_nonempty sig :=
      lt_of_lt_of_le (lt_of_le_of_ne (hnn i0) (Ne.symm hi0))
        (Finset.le_sup' sig (Finset.mem_univ i0))
    obtain ⟨im, _, him⟩ := Finset.exists_mem_eq_sup' Finset.univ_nonempty sig
    have hlt : tol * Finset.univ.sup' Finset.univ_nonempty sig < sig im := by
      rw [← him]
      calc tol * Finset.univ.sup' Finset.univ_nonempty sig
          < 1 * Finset.univ.sup' Finset.univ_nonempty sig :=
            mul_lt_mul_of_pos_right htol hspos
        _ = Finset.univ.sup' Finset.univ_nonempty sig := one_mul _
    unfold ndf_nmodes
    exact Nat.one_le_iff_ne_zero.mpr
      (@Finset.card_ne_zero_of_mem _ _ im
        (Finset.mem_filter.mpr ⟨Finset.mem_univ im, hlt⟩))
  · intro h0
    have hall : ∀ i, sig i ≤ tol * Finset.univ.sup' Finset.univ_nonempty sig := by
      intro i
      by_contra hlt
      push_neg at hlt
      have hmemf : i ∈ Finset.univ.filter
          (fun i => tol * Finset.univ.sup' Finset.univ_nonempty sig < sig i) :=
        Finset.mem_filter.mpr ⟨Finset.mem_univ i, hlt⟩
      unfold ndf_nmodes at h0
      exact Finset.card_ne_zero_of_mem hmemf h0
    obtain ⟨im, _, him⟩ := Finset.exists_mem_eq_sup' Finset.univ_nonempty sig
    have hsle : Finset.univ.sup' Finset.univ_nonempty sig
        ≤ tol * Finset.univ.sup' Finset.univ_nonempty sig := by
      calc Finset.univ.sup' Finset.univ_nonempty sig = sig im := him
        _ ≤ tol * Finset.univ.sup' Finset.univ_nonempty sig := hall im
    have hs0 : Finset.univ.sup' Finset.univ_nonempty sig ≤ 0 := by nlinarith
    have hsig0 : ∀ i, sig i = 0 := fun i =>
      le_antisymm (le_trans (Finset.le_sup' sig (Finset.mem_univ i)) hs0) (hnn i)
    have hsum0 : ∑ j, ∑ d, Complex.normSq (ndf_F m nd freq mask max_delay j d) = 0 := by
      rw [← hfrob]
      simp [hsig0]
    ext j d
    rw [Matrix.zero_apply, ← Complex.normSq_eq_zero]
    have hrow : ∑ d, Complex.normSq (ndf_F m nd freq mask max_delay j d) = 0 :=
      (Finset.sum_eq_zero_iff_of_nonneg fun j2 _ =>
        Finset.sum_nonneg fun d2 _ => Complex.normSq_nonneg _).mp hsum0 j (Finset.mem_univ j)
    exact (Finset.sum_eq_zero_iff_of_nonneg fun d2 _ =>
      Complex.normSq_nonneg _).mp hrow d (Finset.mem_univ d)

/-! ### Helper lemmas for the claim C9 witness -/

theorem c9freq_min : freqMin c9freq = 0 := by
  unfold freqMin
  apply le_antisymm
  · calc Finset.univ.inf' Finset.univ_nonempty c9freq ≤ c9freq 0 :=
          Finset.inf'_le c9freq (Finset.mem_univ 0)
      _ = 0 := by norm_num [c9freq]
  · apply Finset.le_inf'
    intro b _
    fin_cases b <;> norm_num [c9freq]

theorem c9freq_sup : Finset.univ.sup' Finset.univ_nonempty c9freq = 1 := by
  apply le_antisymm
  · apply Finset.sup'_le
    intro b _
    fin_cases b <;> norm_num [c9freq]
  · calc (1 : ℝ) = c9freq 2 := by norm_num [c9freq]
      _ ≤ Finset.univ.sup' Finset.univ_nonempty c9freq :=
          Finset.le_sup' c9freq (Finset.mem_univ 2)

theorem c9freq_ptp : freqPtp c9freq = 1 := by
  unfold freqPtp
  rw [c9freq_sup, c9freq_min]
  norm_num

theorem c9_x (j : Fin 3) : ndf_x c9freq j = c9freq j := by
  unfold ndf_x
  rw [c9freq_min, c9freq_ptp]
  simp

theorem c9_delay (d : Fin 1) : ndf_delay 0 1 d = 0 := by
  unfold ndf_delay
  norm_num

theorem c9w0 : ndf_w c9freq 0 = 0 := by
  unfold ndf_w
  rw [c9_x, show c9freq 0 = 0 by norm_num [c9freq], window_sum_at_zero]
  norm_num [nuttall_a]

theorem c9w1 : ndf_w c9freq 1 = 1 := by
  unfold ndf_w
  rw [c9_x, show c9freq 1 = 1 / 2 by norm_num [c9freq], window_sum_at_half]
  norm_num [nuttall_a]

theorem c9w2 : ndf_w c9freq 2 = 0 := by
  unfold ndf_w
  rw [c9_x, show c9freq 2 = 1 by norm_num [c9freq], window_sum_at_one]
  norm_num [nuttall_a]

theorem c9F_eval : ndf_F 2 1 c9freq (fun _ => 1) 0 = Matrix.of ![![0], ![1], ![0]] := by
  ext j d
  unfold ndf_F
  rw [Matrix.of_apply, c9_delay d]
  simp only [Complex.ofReal_zero, mul_zero, zero_mul, Complex.exp_zero, mul_one, one_mul]
  fin_cases j <;> fin_cases d <;> simp [c9w0, c9w1, c9w2]

theorem c9_frob :
    ∑ i, c9sig i ^ 2 = ∑ j, ∑ d, Complex.normSq (ndf_F 2 1 c9freq (fun _ => 1) 0 j d) := by
  rw [c9F_eval]
  rw [Fin.sum_univ_one, Fin.sum_univ_three]
  simp [c9sig, Complex.normSq]

/-- Witness for claim C9 at the concrete three-channel axis `c9freq` with
unit mask, zero cutoff, a single candidate delay, the default tolerance and
the singular-value list `(1)`. -/
theorem ndf_nmodes_spec_witness :
    (∀ i, 0 ≤ c9sig i) ∧ ((1e-8 : ℝ) < 1)
      ∧ (∑ i, c9sig i ^ 2
          = ∑ j, ∑ d, Complex.normSq (ndf_F 2 1 c9freq (fun _ => 1) 0 j d))
      ∧ (((∃ i, c9sig i ≠ 0) → 1 ≤ ndf_nmodes c9sig 1e-8)
          ∧ (ndf_nmodes c9sig 1e-8 = 0 → ndf_F 2 1 c9freq (fun _ => 1) 0 = 0)) :=
  ⟨by intro i; fin_cases i <;> norm_num [c9sig], by norm_num, c9_frob,
    ndf_nmodes_spec 2 0 1 c9freq (fun _ => 1) 0 1e-8 c9sig
      (by intro i; fin_cases i <;> norm_num [c9sig]) (by norm_num) c9_frob⟩

/-- Claim C10: when `update_weight` is off (its default), the container that
`DelayFilter.process` returns differs from its input only in the visibility
dataset, which holds the filtered values `dot(NF, vis)` per baseline; the
weight dataset and the frequency axis are unchanged.  The Python method
mutates its argument in place and returns it; in this functional embedding
that aliasing appears as the returned record sharing every non-visibility
field with the input. -/
theorem delay_filter_frame (m nb nt : ℕ) (kk : Fin nb → ℕ)
    (p : (b : Fin nb) → Matrix (Fin (m + 1)) (Fin (kk b)) ℂ)
    (ss out : SStream (m + 1) nb nt)
    (h : DelayFilter_process m nb nt false kk p ss = Except.ok out) :
    out.weight = ss.weight ∧ out.freqCentre = ss.freqCentre
      ∧ out.vis = fun f b t => ∑ f2,
          null_delay_filter m ss.freqCentre
            (fun j => np_median (List.ofFn fun u => ss.weight j b u)) (p b) true f f2
            * ss.vis f2 b t := by
  unfold DelayFilter_process at h
  rw [if_neg (by simp)] at h
  rw [Except.ok.injEq] at h
  subst h
  exact ⟨rfl, rfl, rfl⟩

/-- Witness for claim C10 at a concrete one-channel stream. -/
theorem delay_filter_frame_witness :
    DelayFilter_process 0 1 1 false c10kk c10P c10Stream = Except.ok c10Out
      ∧ (c10Out.weight = c10Stream.weight ∧ c10Out.freqCentre = c10Stream.freqCentre
          ∧ c10Out.vis = fun f b t => ∑ f2,
              null_delay_filter 0 c10Stream.freqCentre
                (fun j => np_median (List.ofFn fun u => c10Stream.weight j b u)) (c10P b)
                true f f2
                * c10Stream.vis f2 b t) := by
  have h : DelayFilter_process 0 1 1 false c10kk c10P c10Stream = Except.ok c10Out := by
    unfold DelayFilter_process c10Out
    rw [if_neg (by simp)]
  exact ⟨h, delay_filter_frame 0 1 1 c10kk c10P c10Stream c10Out h⟩

end DracoDelay
